import Mathlib

/-!
Verification of the dependency-graph and job-orchestration subsystem of the
theorem-library repository, as a shallow embedding in Lean 4.

The graph store (Neo4j `Project` nodes and `DEPENDS_ON` edges, see
`common/dependency_service/schema.py`) is modelled as an explicit record of
nodes and directed edges; the Cypher queries and the neomodel get-or-create
idioms of `dependency-service/app/main_fastapi.py`, `main_celery.py` and
`main.py` are modelled as pure state-passing functions on that record.
-/

/-- Composite identity of an artifact: opaque repository URL and commit
strings (`schema.Project.repo_url` / `commit`). -/
structure ProjectKey where
  repo_url : String
  commit : String
deriving DecidableEq

/-- The tri-state validity flags of `schema.Project`
(`ternary_choices = valid | invalid | unknown`). -/
inductive Ternary where
  | valid
  | invalid
  | unknown
deriving DecidableEq

/-- A `Project` node: composite key plus the three flags, each defaulting to
`unknown` at creation (`schema.py`). -/
structure ProjectNode where
  key : ProjectKey
  has_valid_dependencies : Ternary := .unknown
  has_valid_proof : Ternary := .unknown
  has_valid_paper : Ternary := .unknown
deriving DecidableEq

/-- The Neo4j database state: `Project` nodes and directed `DEPENDS_ON`
edges between composite keys. -/
structure GraphDB where
  nodes : List ProjectNode
  edges : List (ProjectKey × ProjectKey)
deriving DecidableEq

/-- `MATCH (p:Project {repo_url: .., commit: ..})` succeeds iff a node with
the composite key is present. -/
def GraphDB.containsNode (g : GraphDB) (k : ProjectKey) : Bool :=
  g.nodes.any (fun n => n.key = k)

/-- Direct `DEPENDS_ON` successors of a key. -/
def successors (E : List (ProjectKey × ProjectKey)) (k : ProjectKey) :
    List ProjectKey :=
  (E.filter (fun e => e.1 = k)).map Prod.snd

/-- One saturation step of the reachable set: keep the set and add every
direct successor of a member. -/
def expandOnce (E : List (ProjectKey × ProjectKey)) (s : List ProjectKey) :
    List ProjectKey :=
  s ++ s.flatMap (successors E)

/-- Iterated saturation. -/
def expandIter (E : List (ProjectKey × ProjectKey)) :
    Nat → List ProjectKey → List ProjectKey
  | 0, s => s
  | n + 1, s => expandOnce E (expandIter E n s)

/-- Executable semantics of the Cypher path pattern
`(p)-[:DEPENDS_ON*0..]->(d)` with `RETURN DISTINCT`: the deduplicated set of
keys reachable from `k` by zero or more edges.  `E.length + 1` saturation
steps reach the fixpoint (proved below). -/
def reachList (E : List (ProjectKey × ProjectKey)) (k : ProjectKey) :
    List ProjectKey :=
  (expandIter E (E.length + 1) [k]).dedup

/-- Embedding of `get_project_dependencies` in
`dependency-service/app/main_fastapi.py`: the query
`MATCH (p:Project {..})-[:DEPENDS_ON*0..]->(d:Project)
 RETURN DISTINCT properties(d)`, returning the keys of the matched `d`
nodes (no rows when `p` does not match). -/
def get_project_dependencies (g : GraphDB) (k : ProjectKey) :
    List ProjectKey :=
  if g.containsNode k then (reachList g.edges k).filter g.containsNode
  else []

/-- The edge relation of the graph, as a relation on keys. -/
def EdgeStep (E : List (ProjectKey × ProjectKey)) (x y : ProjectKey) : Prop :=
  (x, y) ∈ E

lemma mem_successors {E : List (ProjectKey × ProjectKey)}
    {a b : ProjectKey} : b ∈ successors E a ↔ (a, b) ∈ E := by
  unfold successors
  simp only [List.mem_map, List.mem_filter, decide_eq_true_eq]
  constructor
  · rintro ⟨e, ⟨heE, h1⟩, h2⟩
    have : e = (a, b) := by
      cases e
      simp_all
    simpa [this] using heE
  · intro h
    exact ⟨(a, b), ⟨h, rfl⟩, rfl⟩

lemma mem_expandOnce {E : List (ProjectKey × ProjectKey)}
    {s : List ProjectKey} {b : ProjectKey} :
    b ∈ expandOnce E s ↔ b ∈ s ∨ ∃ a, a ∈ s ∧ (a, b) ∈ E := by
  unfold expandOnce
  simp only [List.mem_append, List.mem_flatMap]
  constructor
  · rintro (h | ⟨a, ha, hb⟩)
    · exact Or.inl h
    · exact Or.inr ⟨a, ha, mem_successors.mp hb⟩
  · rintro (h | ⟨a, ha, hb⟩)
    · exact Or.inl h
    · exact Or.inr ⟨a, ha, mem_successors.mpr hb⟩

lemma subset_expandOnce {E : List (ProjectKey × ProjectKey)}
    {s : List ProjectKey} : s ⊆ expandOnce E s := by
  intro x hx
  exact mem_expandOnce.mpr (Or.inl hx)

lemma expandOnce_congr {E : List (ProjectKey × ProjectKey)}
    {s t : List ProjectKey} (h : ∀ x, x ∈ s ↔ x ∈ t) :
    ∀ x, x ∈ expandOnce E s ↔ x ∈ expandOnce E t := by
  intro x
  rw [mem_expandOnce, mem_expandOnce]
  constructor
  · rintro (hx | ⟨a, ha, hab⟩)
    · exact Or.inl ((h x).mp hx)
    · exact Or.inr ⟨a, (h a).mp ha, hab⟩
  · rintro (hx | ⟨a, ha, hab⟩)
    · exact Or.inl ((h x).mpr hx)
    · exact Or.inr ⟨a, (h a).mpr ha, hab⟩

lemma expandIter_subset_succ {E : List (ProjectKey × ProjectKey)}
    {s : List ProjectKey} (n : Nat) :
    expandIter E n s ⊆ expandIter E (n + 1) s := by
  intro x hx
  exact subset_expandOnce hx

lemma expandIter_subset_of_le {E : List (ProjectKey × ProjectKey)}
    {s : List ProjectKey} {m n : Nat} (h : m ≤ n) :
    expandIter E m s ⊆ expandIter E n s := by
  induction h with
  | refl => exact fun x hx => hx
  | step h ih => exact fun x hx => expandIter_subset_succ _ (ih hx)

/-- Soundness of saturation: everything in the iterated expansion of `[k]`
is reachable from `k`. -/
lemma expandIter_sound {E : List (ProjectKey × ProjectKey)} {k : ProjectKey} :
    ∀ n b, b ∈ expandIter E n [k] → Relation.ReflTransGen (EdgeStep E) k b := by
  intro n
  induction n with
  | zero =>
    intro b hb
    simp only [expandIter, List.mem_singleton] at hb
    subst hb
    exact Relation.ReflTransGen.refl
  | succ n ih =>
    intro b hb
    rcases mem_expandOnce.mp hb with h | ⟨a, ha, hab⟩
    · exact ih b h
    · exact Relation.ReflTransGen.tail (ih a ha) hab

/-- Every iterate stays inside the finite universe of candidate keys. -/
lemma expandIter_subset_universe {E : List (ProjectKey × ProjectKey)}
    {k : ProjectKey} :
    ∀ n, (expandIter E n [k]).toFinset ⊆
      insert k (E.map Prod.snd).toFinset := by
  intro n
  induction n with
  | zero =>
    intro x hx
    simp only [expandIter, List.toFinset_cons, List.toFinset_nil] at hx
    simp_all
  | succ n ih =>
    intro x hx
    rw [List.mem_toFinset] at hx
    rcases mem_expandOnce.mp hx with h | ⟨a, _, hab⟩
    · exact ih (List.mem_toFinset.mpr h)
    · have : x ∈ E.map Prod.snd := List.mem_map.mpr ⟨(a, x), hab, rfl⟩
      simp [List.mem_toFinset.mpr this]

lemma expandIter_card_lower {E : List (ProjectKey × ProjectKey)}
    {k : ProjectKey}
    (hstrict : ∀ m ≤ E.length,
      (expandIter E m [k]).toFinset ≠ (expandIter E (m + 1) [k]).toFinset) :
    ∀ n, n ≤ E.length + 1 → n < (expandIter E n [k]).toFinset.card := by
  intro n
  induction n with
  | zero =>
    intro _
    have : k ∈ (expandIter E 0 [k]).toFinset := by
      simp [expandIter]
    exact Finset.card_pos.mpr ⟨k, this⟩
  | succ n ih =>
    intro hn
    have hnE : n ≤ E.length := Nat.lt_succ_iff.mp hn
    have hsub : (expandIter E n [k]).toFinset ⊆
        (expandIter E (n + 1) [k]).toFinset := by
      intro x hx
      rw [List.mem_toFinset] at hx ⊢
      exact expandIter_subset_succ n hx
    have hlt : (expandIter E n [k]).toFinset ⊂
        (expandIter E (n + 1) [k]).toFinset :=
      Finset.ssubset_iff_subset_ne.mpr ⟨hsub, hstrict n hnE⟩
    have := Finset.card_lt_card hlt
    have hihn := ih (Nat.le_of_succ_le hn)
    omega

/-- Pigeonhole: within the first `E.length + 1` iterations the saturation
reaches a membership fixpoint. -/
lemma expandIter_stabilizes {E : List (ProjectKey × ProjectKey)}
    {k : ProjectKey} :
    ∃ n ≤ E.length,
      (expandIter E n [k]).toFinset = (expandIter E (n + 1) [k]).toFinset := by
  by_contra h
  push_neg at h
  have hstrict : ∀ m ≤ E.length,
      (expandIter E m [k]).toFinset ≠ (expandIter E (m + 1) [k]).toFinset :=
    fun m hm => h m hm
  have hlow := expandIter_card_lower hstrict (E.length + 1) (le_refl _)
  have hup : (expandIter E (E.length + 1) [k]).toFinset.card ≤
      (insert k (E.map Prod.snd).toFinset).card :=
    Finset.card_le_card (expandIter_subset_universe _)
  have hins : (insert k (E.map Prod.snd).toFinset).card ≤ E.length + 1 := by
    have h1 := Finset.card_insert_le k (E.map Prod.snd).toFinset
    have h2 : (E.map Prod.snd).toFinset.card ≤ (E.map Prod.snd).length :=
      (E.map Prod.snd).toFinset_card_le
    simpa using le_trans h1 (by simpa using Nat.succ_le_succ h2)
  omega

lemma expandIter_eq_from_aux {E : List (ProjectKey × ProjectKey)}
    {k : ProjectKey} {n : Nat}
    (hfix : (expandIter E n [k]).toFinset = (expandIter E (n + 1) [k]).toFinset) :
    ∀ d, (expandIter E (n + d) [k]).toFinset = (expandIter E n [k]).toFinset := by
  intro d
  induction d with
  | zero => rfl
  | succ d ih =>
    have hmem : ∀ x, x ∈ expandIter E (n + d) [k] ↔ x ∈ expandIter E n [k] := by
      intro x
      rw [← List.mem_toFinset, ih, List.mem_toFinset]
    have hnext : ∀ x, x ∈ expandIter E (n + d + 1) [k] ↔
        x ∈ expandIter E (n + 1) [k] := fun x => expandOnce_congr hmem x
    ext x
    rw [List.mem_toFinset, List.mem_toFinset, show n + (d + 1) = n + d + 1 by omega,
      hnext x, ← List.mem_toFinset, ← hfix, List.mem_toFinset]

lemma expandIter_eq_from {E : List (ProjectKey × ProjectKey)} {k : ProjectKey}
    {n : Nat}
    (hfix : (expandIter E n [k]).toFinset = (expandIter E (n + 1) [k]).toFinset) :
    ∀ m, n ≤ m →
      (expandIter E m [k]).toFinset = (expandIter E n [k]).toFinset := by
  intro m hm
  obtain ⟨d, rfl⟩ := Nat.exists_eq_add_of_le hm
  exact expandIter_eq_from_aux hfix d

/-- The final iterate is closed under one more expansion step. -/
lemma expandIter_final_fixpoint {E : List (ProjectKey × ProjectKey)}
    {k : ProjectKey} {b : ProjectKey}
    (hb : b ∈ expandOnce E (expandIter E (E.length + 1) [k])) :
    b ∈ expandIter E (E.length + 1) [k] := by
  obtain ⟨n, hn, hfix⟩ := expandIter_stabilizes (E := E) (k := k)
  have h1 := expandIter_eq_from hfix (E.length + 1) (by omega)
  have h2 := expandIter_eq_from hfix (E.length + 2) (by omega)
  have : b ∈ expandIter E (E.length + 2) [k] := hb
  rw [← List.mem_toFinset, h2, ← h1, List.mem_toFinset] at this
  exact this

/-- Completeness of saturation: every key reachable from `k` appears in the
final iterate. -/
lemma expandIter_complete {E : List (ProjectKey × ProjectKey)}
    {k b : ProjectKey} (h : Relation.ReflTransGen (EdgeStep E) k b) :
    b ∈ expandIter E (E.length + 1) [k] := by
  induction h with
  | refl =>
    have : k ∈ expandIter E 0 [k] := by simp [expandIter]
    exact expandIter_subset_of_le (Nat.zero_le _) this
  | tail hab hbc ih =>
    exact expandIter_final_fixpoint (mem_expandOnce.mpr (Or.inr ⟨_, ih, hbc⟩))

/-- `reachList` computes exactly the reflexive-transitive closure. -/
lemma mem_reachList {E : List (ProjectKey × ProjectKey)} {k b : ProjectKey} :
    b ∈ reachList E k ↔ Relation.ReflTransGen (EdgeStep E) k b := by
  unfold reachList
  rw [List.mem_dedup]
  exact ⟨expandIter_sound _ _, expandIter_complete⟩

lemma reachList_nodup {E : List (ProjectKey × ProjectKey)} {k : ProjectKey} :
    (reachList E k).Nodup := List.nodup_dedup _

/-- Keys of the three example projects from the spec's transitive-closure
scenario. -/
def advKey : ProjectKey := ⟨"advanced", "c1"⟩

def baseKey : ProjectKey := ⟨"base", "c2"⟩

def algKey : ProjectKey := ⟨"algebra", "c3"⟩

/-- The spec's example graph: edges advanced→base, advanced→algebra,
algebra→base. -/
def exampleGraph : GraphDB where
  nodes := [{ key := advKey }, { key := baseKey }, { key := algKey }]
  edges := [(advKey, baseKey), (advKey, algKey), (algKey, baseKey)]

/-- C1 counterexample: the claim says the transitive dependency listing for
`advanced` excludes the root and equals exactly the set of nodes base and
algebra.  On the code's query, whose path pattern is `DEPENDS_ON*0..`
(zero-or-more hops), the zero-hop match puts the root `advanced` itself in the
result, so the returned set is not the two-element set of the claim. -/
theorem get_project_dependencies_includes_root :
    advKey ∈ get_project_dependencies exampleGraph advKey ∧
    (get_project_dependencies exampleGraph advKey).toFinset ≠
      ({baseKey, algKey} : Finset ProjectKey) := by
  decide

/-- C1 (amended): for every graph whose edges target existing nodes and every
project present in the graph, the transitive dependency listing returns the
distinct set of nodes reachable from that project via zero or more DEPENDS_ON
edges, including the root itself (zero-hop match), with each reachable node
appearing exactly once even when it is reachable by multiple paths. -/
theorem get_project_dependencies_reachable (g : GraphDB) (k : ProjectKey)
    (hk : g.containsNode k = true)
    (hE : ∀ e ∈ g.edges, g.containsNode e.2 = true) :
    (get_project_dependencies g k).Nodup ∧
    ∀ d, d ∈ get_project_dependencies g k ↔
      Relation.ReflTransGen (EdgeStep g.edges) k d := by
  unfold get_project_dependencies
  simp only [hk, if_true]
  constructor
  · exact List.Nodup.filter _ reachList_nodup
  · intro d
    rw [List.mem_filter]
    constructor
    · rintro ⟨hmem, _⟩
      exact mem_reachList.mp hmem
    · intro hr
      refine ⟨mem_reachList.mpr hr, ?_⟩
      rcases Relation.ReflTransGen.cases_tail hr with heq | ⟨c, _, hcd⟩
      · subst heq
        exact hk
      · exact hE (c, d) hcd

/-- C1 witness: the amended theorem instantiated on the spec's example
graph. -/
theorem get_project_dependencies_reachable_witness :
    (get_project_dependencies exampleGraph advKey).Nodup ∧
    ∀ d, d ∈ get_project_dependencies exampleGraph advKey ↔
      Relation.ReflTransGen (EdgeStep exampleGraph.edges) advKey d :=
  get_project_dependencies_reachable exampleGraph advKey (by decide) (by decide)

/-!
Manifest Validator: embedding of `parse_dependencies_from_repo` in
`dependency-task/app/main.py` (the loop over `math-dependencies.json`
entries validated against the `lakefile.toml` requires; the variant in
`dependency-service/app/main_celery.py` runs the identical loop).  File
reading and TOML/JSON parsing are outside the validation algorithm; the
embedding takes the parsed lockfile map and declared entry list as inputs.
-/

/-- A declared entry of `math-dependencies.json`: `dep.get("git")` and
`dep.get("commit")` may be absent (`none`) or present (possibly empty). -/
structure DepEntry where
  git : Option String
  commit : Option String
deriving DecidableEq

/-- Python falsiness of an optional string (`if not dep_git`): absent or
empty. -/
def falsy : Option String → Bool
  | none => true
  | some s => s = ""

/-- A validated dependency (`public_model.ProjectInfo`). -/
structure ProjectInfo where
  repo_url : String
  commit : String
deriving DecidableEq

/-- Error message for a declared entry with a missing or empty git field. -/
def missingGitMsg : String := "Dependency missing git field"

/-- Error message for a missing or empty commit field. -/
def missingCommitMsg (g : String) : String :=
  "Dependency " ++ g ++ " missing commit field"

/-- Error message for a url absent from the lockfile. -/
def notFoundMsg (g : String) : String :=
  "Dependency " ++ g ++ " not found in lakefile.toml require sections"

/-- Error message for a pinned revision differing from the declared one. -/
def mismatchMsg (g declared pinned : String) : String :=
  "Dependency " ++ g ++ ": commit mismatch - math-dependencies.json has " ++
    declared ++ ", lakefile.toml has " ++ pinned

/-- The validation loop of `parse_dependencies_from_repo`: walk the declared
entries in order, accumulating the validated dependencies and the validation
errors; each failing check appends one error and `continue`s to the next
entry. -/
def validateEntries (L : List (String × String)) :
    List DepEntry → List ProjectInfo × List String
  | [] => ([], [])
  | dep :: rest =>
    let tail := validateEntries L rest
    if falsy dep.git then
      (tail.1, missingGitMsg :: tail.2)
    else if falsy dep.commit then
      (tail.1, missingCommitMsg (dep.git.getD "") :: tail.2)
    else
      match L.lookup (dep.git.getD "") with
      | none => (tail.1, notFoundMsg (dep.git.getD "") :: tail.2)
      | some rev =>
        if rev ≠ dep.commit.getD "" then
          (tail.1, mismatchMsg (dep.git.getD "") (dep.commit.getD "") rev :: tail.2)
        else
          (⟨dep.git.getD "", dep.commit.getD ""⟩ :: tail.1, tail.2)

/-- `parse_dependencies_from_repo` after file parsing: raise `ValueError`
(here `Except.error`) when the accumulated error list is non-empty, else
return the validated list. -/
def parse_dependencies_from_repo (L : List (String × String))
    (declared : List DepEntry) : Except (List String) (List ProjectInfo) :=
  let r := validateEntries L declared
  if r.2.isEmpty then .ok r.1 else .error r.2

/-- The first failing check for one declared entry, in the code's fixed
order: missing git field, missing commit field, url absent from lockfile,
revision mismatch; `none` when the entry passes all four. -/
def entryError (L : List (String × String)) (dep : DepEntry) : Option String :=
  if falsy dep.git then some missingGitMsg
  else if falsy dep.commit then some (missingCommitMsg (dep.git.getD ""))
  else
    match L.lookup (dep.git.getD "") with
    | none => some (notFoundMsg (dep.git.getD ""))
    | some rev =>
      if rev ≠ dep.commit.getD "" then
        some (mismatchMsg (dep.git.getD "") (dep.commit.getD "") rev)
      else none

lemma validateEntries_characterization (L : List (String × String))
    (ds : List DepEntry) :
    validateEntries L ds =
      (ds.filterMap (fun d =>
        if entryError L d = none then
          some (⟨d.git.getD "", d.commit.getD ""⟩ : ProjectInfo)
        else none),
       ds.filterMap (entryError L)) := by
  induction ds with
  | nil => rfl
  | cons d rest ih =>
    simp only [validateEntries, List.filterMap_cons, ih]
    cases hg : falsy d.git with
    | true => simp [entryError, hg]
    | false =>
      cases hc : falsy d.commit with
      | true => simp [entryError, hg, hc]
      | false =>
        cases hl : L.lookup (d.git.getD "") with
        | none => simp [entryError, hg, hc, hl]
        | some rev =>
          by_cases hrev : rev = d.commit.getD ""
          · simp [entryError, hg, hc, hl, hrev]
          · simp [entryError, hg, hc, hl, hrev]

lemma filterMap_ok_eq_map (L : List (String × String)) (ds : List DepEntry)
    (h : ∀ d ∈ ds, entryError L d = none) :
    ds.filterMap (fun d =>
        if entryError L d = none then
          some (⟨d.git.getD "", d.commit.getD ""⟩ : ProjectInfo)
        else none) =
      ds.map (fun d => (⟨d.git.getD "", d.commit.getD ""⟩ : ProjectInfo)) := by
  induction ds with
  | nil => rfl
  | cons d rest ih =>
    have hd := h d (List.mem_cons_self d rest)
    have hrest := ih (fun x hx => h x (List.mem_cons_of_mem d hx))
    simp [hd, hrest]

/-- The spec's all-or-nothing test scenario: lockfile pinning A at r1. -/
def lockEx : List (String × String) := [("A", "r1")]

/-- Declared entries: A at r1 (valid) and B at r2 (absent from the
lockfile). -/
def dsEx : List DepEntry := [⟨some "A", some "r1"⟩, ⟨some "B", some "r2"⟩]

/-- C2: for every lockfile map and declared list, validation accumulates all
per-entry failures (the error list is the per-entry first-failure over the
whole input, not just the first entry that fails); a non-empty error set
rejects the whole batch with no partial output, and an empty error set
returns exactly the declared list, unchanged and in order. -/
theorem parse_dependencies_all_or_nothing (L : List (String × String))
    (ds : List DepEntry) :
    (∀ es, parse_dependencies_from_repo L ds = .error es →
      es = ds.filterMap (entryError L) ∧ es ≠ []) ∧
    (∀ out, parse_dependencies_from_repo L ds = .ok out →
      ds.filterMap (entryError L) = [] ∧
      out = ds.map (fun d => (⟨d.git.getD "", d.commit.getD ""⟩ : ProjectInfo))) := by
  unfold parse_dependencies_from_repo
  rw [validateEntries_characterization]
  cases hemp : (ds.filterMap (entryError L)).isEmpty with
  | true =>
    have hnil : ds.filterMap (entryError L) = [] := List.isEmpty_iff.mp hemp
    constructor
    · intro es hes
      simp [hnil] at hes
    · intro out hout
      simp only [hnil, List.isEmpty_nil, if_true, Except.ok.injEq] at hout
      refine ⟨hnil, ?_⟩
      rw [← hout]
      exact filterMap_ok_eq_map L ds (List.filterMap_eq_nil_iff.mp hnil)
  | false =>
    constructor
    · intro es hes
      simp only [hemp, Bool.false_eq_true, if_false, Except.error.injEq] at hes
      refine ⟨hes.symm, ?_⟩
      intro hnil
      rw [hnil] at hes
      simp [hes] at hemp
    · intro out hout
      simp [hemp] at hout

/-- C2 witness: for the lockfile pinning only A at r1 and declared entries
A at r1 and B at r2, validation rejects the batch with exactly the single
not-found error for B. -/
theorem parse_dependencies_all_or_nothing_witness :
    [notFoundMsg "B"] = dsEx.filterMap (entryError lockEx) ∧
    ([notFoundMsg "B"] : List String) ≠ [] :=
  (parse_dependencies_all_or_nothing lockEx dsEx).1 [notFoundMsg "B"] (by rfl)

/-- C10: each declared entry contributes at most one validation error: the
accumulated error list is the per-entry first failing check in the fixed
order (missing git field, missing commit field, url absent from lockfile,
revision mismatch), an entry failing an early check is never reported by a
later check (an entry with a missing commit whose url is also absent from the
lockfile yields only the missing-commit error), and a field equal to the
empty string counts as missing. -/
theorem validation_one_error_per_entry (L : List (String × String))
    (ds : List DepEntry) (g : String) (hg : g ≠ "")
    (hmiss : L.lookup g = none) :
    (validateEntries L ds).2 = ds.filterMap (entryError L) ∧
    (validateEntries L ds).2.length ≤ ds.length ∧
    entryError L ⟨some g, none⟩ = some (missingCommitMsg g) ∧
    entryError L ⟨some g, some ""⟩ = some (missingCommitMsg g) ∧
    entryError L ⟨some "", some "c"⟩ = some missingGitMsg ∧
    entryError L ⟨none, none⟩ = some missingGitMsg := by
  refine ⟨?_, ?_, ?_, ?_, ?_, ?_⟩
  · rw [validateEntries_characterization]
  · rw [validateEntries_characterization]
    exact List.length_filterMap_le _ _
  · simp [entryError, falsy, hg]
  · simp [entryError, falsy, hg]
  · simp [entryError, falsy]
  · simp [entryError, falsy]

/-- C10 witness: instantiated with lockfile pinning only A and the url B,
absent from the lockfile. -/
theorem validation_one_error_per_entry_witness :
    (validateEntries lockEx dsEx).2 = dsEx.filterMap (entryError lockEx) ∧
    (validateEntries lockEx dsEx).2.length ≤ dsEx.length ∧
    entryError lockEx ⟨some "B", none⟩ = some (missingCommitMsg "B") ∧
    entryError lockEx ⟨some "B", some ""⟩ = some (missingCommitMsg "B") ∧
    entryError lockEx ⟨some "", some "c"⟩ = some missingGitMsg ∧
    entryError lockEx ⟨none, none⟩ = some missingGitMsg :=
  validation_one_error_per_entry lockEx dsEx "B" (by decide) (by rfl)

/-!
Graph store mutations.  `upsert_project` embeds the get-or-create idiom of
`internal_add_project` (`Project.nodes.get_or_none` followed by creating and
saving a fresh node) and the Cypher
`MERGE (p:Project {repo_url: .., commit: ..})` of `clone_and_index_repository`
in `dependency-service/app/main_celery.py`.  Flag updates and
`add_dependency` embed the endpoints of `dependency-service/app`.
-/

/-- Get-or-create a project node by composite key; a fresh node carries the
default `unknown` flags. -/
def upsert_project (g : GraphDB) (k : ProjectKey) : GraphDB :=
  if g.containsNode k then g
  else { g with nodes := g.nodes ++ [{ key := k }] }

lemma containsNode_iff {g : GraphDB} {k : ProjectKey} :
    g.containsNode k = true ↔ ∃ n ∈ g.nodes, n.key = k := by
  unfold GraphDB.containsNode
  rw [List.any_eq_true]
  simp

lemma countP_key_pos_iff {g : GraphDB} {k : ProjectKey} :
    0 < g.nodes.countP (fun n => n.key = k) ↔ g.containsNode k = true := by
  rw [List.countP_pos_iff, containsNode_iff]
  simp

/-- C9: upserting an artifact is idempotent.  Performing the upsert twice for
the same composite key equals performing it once; starting from a graph that
holds at most one node with the key (the uniqueness invariant), the result
holds exactly one node with that key; edges and unrelated nodes are
untouched.  A concurrent pair of upserts executes as one of the two
sequential orders against the store's atomic merge, both of which equal a
single upsert by idempotence. -/
theorem upsert_project_idempotent (g : GraphDB) (k : ProjectKey)
    (huniq : g.nodes.countP (fun n => n.key = k) ≤ 1) :
    upsert_project (upsert_project g k) k = upsert_project g k ∧
    (upsert_project g k).nodes.countP (fun n => n.key = k) = 1 ∧
    (upsert_project g k).edges = g.edges ∧
    ∀ n ∈ g.nodes, n ∈ (upsert_project g k).nodes := by
  unfold upsert_project
  cases hc : g.containsNode k with
  | true =>
    simp only [hc, if_true]
    refine ⟨trivial, ?_, trivial, fun n hn => hn⟩
    have := countP_key_pos_iff.mpr hc
    omega
  | false =>
    have hnew : GraphDB.containsNode
        { g with nodes := g.nodes ++ [{ key := k }] } k = true := by
      apply containsNode_iff.mpr
      exact ⟨{ key := k }, by simp, rfl⟩
    simp only [hc, Bool.false_eq_true, if_false, hnew, if_true]
    refine ⟨trivial, ?_, trivial, fun n hn => by simp [hn]⟩
    have hzero : g.nodes.countP (fun n => n.key = k) = 0 := by
      by_contra hne
      have : 0 < g.nodes.countP (fun n => n.key = k) := Nat.pos_of_ne_zero hne
      rw [countP_key_pos_iff] at this
      simp [this] at hc
    simp [List.countP_append, hzero]

/-- C9 witness: upserting `base` into the example graph (which already holds
it once). -/
theorem upsert_project_idempotent_witness :
    upsert_project (upsert_project exampleGraph baseKey) baseKey =
      upsert_project exampleGraph baseKey ∧
    (upsert_project exampleGraph baseKey).nodes.countP
      (fun n => n.key = baseKey) = 1 ∧
    (upsert_project exampleGraph baseKey).edges = exampleGraph.edges ∧
    ∀ n ∈ exampleGraph.nodes, n ∈ (upsert_project exampleGraph baseKey).nodes :=
  upsert_project_idempotent exampleGraph baseKey (by decide)

/-- Request body of the internal flag-update endpoints
(`public_model.UpdateStatusRequest`). -/
structure UpdateStatusRequest where
  repo_url : String
  commit : String
  has_valid_status : Bool
deriving DecidableEq

/-- `Project.nodes.get_or_none(repo_url=.., commit=..)`. -/
def GraphDB.findNode (g : GraphDB) (k : ProjectKey) : Option ProjectNode :=
  g.nodes.find? (fun n => n.key = k)

/-- Embedding of `internal_update_verification_status` in
`dependency-service/app/main_fastapi.py`: look the project up by composite
key; absent → HTTP 404 with the graph untouched; present → overwrite
`has_valid_proof` with `valid`/`invalid` per the asserted boolean and save,
HTTP 200. -/
def internal_update_verification_status (g : GraphDB)
    (req : UpdateStatusRequest) : GraphDB × Nat :=
  match g.findNode ⟨req.repo_url, req.commit⟩ with
  | none => (g, 404)
  | some _ =>
    ({ g with nodes := g.nodes.map (fun n =>
        if n.key = (⟨req.repo_url, req.commit⟩ : ProjectKey) then
          { n with has_valid_proof :=
              if req.has_valid_status then .valid else .invalid }
        else n) }, 200)

/-- Embedding of `internal_update_paper_status`: identical shape, writing
`has_valid_paper`. -/
def internal_update_paper_status (g : GraphDB)
    (req : UpdateStatusRequest) : GraphDB × Nat :=
  match g.findNode ⟨req.repo_url, req.commit⟩ with
  | none => (g, 404)
  | some _ =>
    ({ g with nodes := g.nodes.map (fun n =>
        if n.key = (⟨req.repo_url, req.commit⟩ : ProjectKey) then
          { n with has_valid_paper :=
              if req.has_valid_status then .valid else .invalid }
        else n) }, 200)

lemma findNode_isSome_iff {g : GraphDB} {k : ProjectKey} :
    (g.findNode k).isSome = true ↔ g.containsNode k = true := by
  unfold GraphDB.findNode
  rw [List.find?_isSome, containsNode_iff]
  simp

lemma key_of_setProof (k : ProjectKey) (v : Ternary) (n : ProjectNode) :
    ((if n.key = k then { n with has_valid_proof := v } else n) : ProjectNode).key
      = n.key := by
  by_cases h : n.key = k <;> simp [h]

lemma key_of_setPaper (k : ProjectKey) (v : Ternary) (n : ProjectNode) :
    ((if n.key = k then { n with has_valid_paper := v } else n) : ProjectNode).key
      = n.key := by
  by_cases h : n.key = k <;> simp [h]

lemma findNode_map_keyfix {g : GraphDB} {k : ProjectKey}
    {f : ProjectNode → ProjectNode} (hf : ∀ n, (f n).key = n.key) :
    GraphDB.findNode { g with nodes := g.nodes.map f } k =
      Option.map f (g.findNode k) := by
  unfold GraphDB.findNode
  have hp : (fun n => decide (n.key = k)) ∘ f = fun n => decide (n.key = k) := by
    funext n
    simp [Function.comp, hf n]
  rw [List.find?_map, hp]

lemma findNode_none_iff {g : GraphDB} {k : ProjectKey} :
    g.findNode k = none ↔ g.containsNode k = false := by
  constructor
  · intro h
    cases hc : g.containsNode k with
    | false => rfl
    | true =>
      have := findNode_isSome_iff.mpr hc
      rw [h] at this
      simp at this
  · intro h
    cases hf : g.findNode k with
    | none => rfl
    | some n =>
      have : (g.findNode k).isSome = true := by rw [hf]; rfl
      rw [findNode_isSome_iff] at this
      rw [this] at h
      simp at h

lemma verification_update_spec (g : GraphDB) (req : UpdateStatusRequest)
    (b1 : Bool) :
    ((internal_update_verification_status g req).2 = 404 ↔
      g.containsNode ⟨req.repo_url, req.commit⟩ = false) ∧
    (g.containsNode ⟨req.repo_url, req.commit⟩ = false →
      (internal_update_verification_status g req).1 = g) ∧
    (g.containsNode ⟨req.repo_url, req.commit⟩ = true →
      (internal_update_verification_status g req).2 = 200 ∧
      (internal_update_verification_status g req).1.edges = g.edges ∧
      ∀ n ∈ g.nodes,
        (n.key ≠ ⟨req.repo_url, req.commit⟩ →
          n ∈ (internal_update_verification_status g req).1.nodes) ∧
        (n.key = ⟨req.repo_url, req.commit⟩ →
          ({ n with has_valid_proof :=
              if req.has_valid_status then Ternary.valid else Ternary.invalid } :
            ProjectNode) ∈ (internal_update_verification_status g req).1.nodes)) ∧
    (internal_update_verification_status
      (internal_update_verification_status g
        { req with has_valid_status := b1 }).1 req).1 =
      (internal_update_verification_status g req).1 := by
  cases hf : g.findNode ⟨req.repo_url, req.commit⟩ with
  | none =>
    have hc : g.containsNode ⟨req.repo_url, req.commit⟩ = false :=
      findNode_none_iff.mp hf
    simp [internal_update_verification_status, hf, hc]
  | some n0 =>
    have hc : g.containsNode ⟨req.repo_url, req.commit⟩ = true :=
      findNode_isSome_iff.mp (by rw [hf]; rfl)
    have hf2 : GraphDB.findNode
        { g with nodes := g.nodes.map (fun n =>
            if n.key = (⟨req.repo_url, req.commit⟩ : ProjectKey) then
              { n with has_valid_proof :=
                  if b1 then Ternary.valid else Ternary.invalid }
            else n) } ⟨req.repo_url, req.commit⟩ =
        some (if n0.key = (⟨req.repo_url, req.commit⟩ : ProjectKey) then
              { n0 with has_valid_proof :=
                  if b1 then Ternary.valid else Ternary.invalid }
            else n0) := by
      rw [findNode_map_keyfix (fun n => key_of_setProof _ _ n), hf]
      rfl
    refine ⟨by simp [internal_update_verification_status, hf, hc], ?_, ?_, ?_⟩
    · intro habs
      rw [hc] at habs
      simp at habs
    · intro _
      refine ⟨by simp [internal_update_verification_status, hf], ?_, ?_⟩
      · simp [internal_update_verification_status, hf]
      · intro n hn
        constructor
        · intro hnk
          simp only [internal_update_verification_status, hf]
          exact List.mem_map.mpr ⟨n, hn, by simp [hnk]⟩
        · intro hnk
          simp only [internal_update_verification_status, hf]
          exact List.mem_map.mpr ⟨n, hn, by simp [hnk]⟩
    · simp only [internal_update_verification_status, hf, hf2]
      congr 1
      rw [List.map_map]
      apply List.map_congr_left
      intro n _
      by_cases hnk : n.key = (⟨req.repo_url, req.commit⟩ : ProjectKey)
      · simp [Function.comp, hnk]
      · simp [Function.comp, hnk]

lemma paper_update_spec (g : GraphDB) (req : UpdateStatusRequest)
    (b1 : Bool) :
    ((internal_update_paper_status g req).2 = 404 ↔
      g.containsNode ⟨req.repo_url, req.commit⟩ = false) ∧
    (g.containsNode ⟨req.repo_url, req.commit⟩ = false →
      (internal_update_paper_status g req).1 = g) ∧
    (g.containsNode ⟨req.repo_url, req.commit⟩ = true →
      (internal_update_paper_status g req).2 = 200 ∧
      (internal_update_paper_status g req).1.edges = g.edges ∧
      ∀ n ∈ g.nodes,
        (n.key ≠ ⟨req.repo_url, req.commit⟩ →
          n ∈ (internal_update_paper_status g req).1.nodes) ∧
        (n.key = ⟨req.repo_url, req.commit⟩ →
          ({ n with has_valid_paper :=
              if req.has_valid_status then Ternary.valid else Ternary.invalid } :
            ProjectNode) ∈ (internal_update_paper_status g req).1.nodes)) ∧
    (internal_update_paper_status
      (internal_update_paper_status g
        { req with has_valid_status := b1 }).1 req).1 =
      (internal_update_paper_status g req).1 := by
  cases hf : g.findNode ⟨req.repo_url, req.commit⟩ with
  | none =>
    have hc : g.containsNode ⟨req.repo_url, req.commit⟩ = false :=
      findNode_none_iff.mp hf
    simp [internal_update_paper_status, hf, hc]
  | some n0 =>
    have hc : g.containsNode ⟨req.repo_url, req.commit⟩ = true :=
      findNode_isSome_iff.mp (by rw [hf]; rfl)
    have hf2 : GraphDB.findNode
        { g with nodes := g.nodes.map (fun n =>
            if n.key = (⟨req.repo_url, req.commit⟩ : ProjectKey) then
              { n with has_valid_paper :=
                  if b1 then Ternary.valid else Ternary.invalid }
            else n) } ⟨req.repo_url, req.commit⟩ =
        some (if n0.key = (⟨req.repo_url, req.commit⟩ : ProjectKey) then
              { n0 with has_valid_paper :=
                  if b1 then Ternary.valid else Ternary.invalid }
            else n0) := by
      rw [findNode_map_keyfix (fun n => key_of_setPaper _ _ n), hf]
      rfl
    refine ⟨by simp [internal_update_paper_status, hf, hc], ?_, ?_, ?_⟩
    · intro habs
      rw [hc] at habs
      simp at habs
    · intro _
      refine ⟨by simp [internal_update_paper_status, hf], ?_, ?_⟩
      · simp [internal_update_paper_status, hf]
      · intro n hn
        constructor
        · intro hnk
          simp only [internal_update_paper_status, hf]
          exact List.mem_map.mpr ⟨n, hn, by simp [hnk]⟩
        · intro hnk
          simp only [internal_update_paper_status, hf]
          exact List.mem_map.mpr ⟨n, hn, by simp [hnk]⟩
    · simp only [internal_update_paper_status, hf, hf2]
      congr 1
      rw [List.map_map]
      apply List.map_congr_left
      intro n _
      by_cases hnk : n.key = (⟨req.repo_url, req.commit⟩ : ProjectKey)
      · simp [Function.comp, hnk]
      · simp [Function.comp, hnk]

/-- C5: every flag-update request (verification or paper status) fails with
HTTP 404 exactly when no artifact with the requested `(repo_url, commit)`
composite key exists, leaving the graph unchanged in that case; otherwise it
returns 200 and unconditionally overwrites the corresponding tri-state flag
of the matching node with the asserted value, preserving edges, unrelated
nodes and the node's other flags — and a second write for the same key wins
over any earlier one (no concurrency check). -/
theorem flag_update_spec (g : GraphDB) (req : UpdateStatusRequest)
    (b1 : Bool) :
    (((internal_update_verification_status g req).2 = 404 ↔
      g.containsNode ⟨req.repo_url, req.commit⟩ = false) ∧
    (g.containsNode ⟨req.repo_url, req.commit⟩ = false →
      (internal_update_verification_status g req).1 = g) ∧
    (g.containsNode ⟨req.repo_url, req.commit⟩ = true →
      (internal_update_verification_status g req).2 = 200 ∧
      (internal_update_verification_status g req).1.edges = g.edges ∧
      ∀ n ∈ g.nodes,
        (n.key ≠ ⟨req.repo_url, req.commit⟩ →
          n ∈ (internal_update_verification_status g req).1.nodes) ∧
        (n.key = ⟨req.repo_url, req.commit⟩ →
          ({ n with has_valid_proof :=
              if req.has_valid_status then Ternary.valid else Ternary.invalid } :
            ProjectNode) ∈ (internal_update_verification_status g req).1.nodes)) ∧
    (internal_update_verification_status
      (internal_update_verification_status g
        { req with has_valid_status := b1 }).1 req).1 =
      (internal_update_verification_status g req).1) ∧
    (((internal_update_paper_status g req).2 = 404 ↔
      g.containsNode ⟨req.repo_url, req.commit⟩ = false) ∧
    (g.containsNode ⟨req.repo_url, req.commit⟩ = false →
      (internal_update_paper_status g req).1 = g) ∧
    (g.containsNode ⟨req.repo_url, req.commit⟩ = true →
      (internal_update_paper_status g req).2 = 200 ∧
      (internal_update_paper_status g req).1.edges = g.edges ∧
      ∀ n ∈ g.nodes,
        (n.key ≠ ⟨req.repo_url, req.commit⟩ →
          n ∈ (internal_update_paper_status g req).1.nodes) ∧
        (n.key = ⟨req.repo_url, req.commit⟩ →
          ({ n with has_valid_paper :=
              if req.has_valid_status then Ternary.valid else Ternary.invalid } :
            ProjectNode) ∈ (internal_update_paper_status g req).1.nodes)) ∧
    (internal_update_paper_status
      (internal_update_paper_status g
        { req with has_valid_status := b1 }).1 req).1 =
      (internal_update_paper_status g req).1) :=
  ⟨verification_update_spec g req b1, paper_update_spec g req b1⟩

/-- C5 witness: the flag-update specification applied to the example graph
and a request for `base` (present) with asserted value `true`, extracting the
404-iff, the present-key branch and the last-write-wins equation at that
concrete input. -/
theorem flag_update_spec_witness :
    ¬ ((internal_update_verification_status exampleGraph
        ⟨"base", "c2", true⟩).2 = 404) ∧
    (internal_update_verification_status exampleGraph
        ⟨"base", "c2", true⟩).2 = 200 ∧
    (internal_update_paper_status
      (internal_update_paper_status exampleGraph ⟨"base", "c2", false⟩).1
      ⟨"base", "c2", true⟩).1 =
      (internal_update_paper_status exampleGraph ⟨"base", "c2", true⟩).1 := by
  have h := flag_update_spec exampleGraph ⟨"base", "c2", true⟩ false
  refine ⟨?_, ?_, ?_⟩
  · intro h404
    have := (h.1.1).mp h404
    simp [exampleGraph, GraphDB.containsNode, baseKey] at this
  · exact (h.1.2.2.1 (by decide)).1
  · exact h.2.2.2.2

/-- Request body of the manual dependency endpoint (`model.DependencyInfo`). -/
structure DependencyInfo where
  source_repo : String
  source_commit : String
  dependency_repo : String
  dependency_commit : String
deriving DecidableEq

/-- Embedding of `add_dependency` in `dependency-service/app/main.py`:
verify that the source project exists (`MATCH .. RETURN p`, else HTTP 404),
then that the dependency project exists (else 404), then
`MERGE (p)-[:DEPENDS_ON]->(d)` — create the edge only when it is not already
present — and return HTTP 201.  Neither branch ever creates a node. -/
def add_dependency (g : GraphDB) (req : DependencyInfo) : GraphDB × Nat :=
  if g.containsNode ⟨req.source_repo, req.source_commit⟩ = false then (g, 404)
  else if g.containsNode ⟨req.dependency_repo, req.dependency_commit⟩ = false
    then (g, 404)
  else if (⟨req.source_repo, req.source_commit⟩,
      ⟨req.dependency_repo, req.dependency_commit⟩) ∈ g.edges then (g, 201)
  else ({ g with edges := g.edges ++
    [(⟨req.source_repo, req.source_commit⟩,
      ⟨req.dependency_repo, req.dependency_commit⟩)] }, 201)

lemma add_dependency_exists_mem {g : GraphDB} {req : DependencyInfo}
    (hs : g.containsNode ⟨req.source_repo, req.source_commit⟩ = true)
    (ht : g.containsNode ⟨req.dependency_repo, req.dependency_commit⟩ = true)
    (hm : (⟨req.source_repo, req.source_commit⟩,
      (⟨req.dependency_repo, req.dependency_commit⟩ : ProjectKey)) ∈ g.edges) :
    add_dependency g req = (g, 201) := by
  simp [add_dependency, hs, ht, hm]

/-- C6: connecting a dependency fails with 404 — creating no edge and no
node — exactly when the source or the target `(repo_url, commit)` node is
absent; when both exist the edge merge succeeds with 201, adds at most the
one asserted edge, never touches the node set, and is idempotent, so
re-asserting an existing DEPENDS_ON edge leaves at most one edge between the
ordered pair. -/
theorem add_dependency_spec (g : GraphDB) (req : DependencyInfo)
    (huniq : g.edges.count (⟨req.source_repo, req.source_commit⟩,
      ⟨req.dependency_repo, req.dependency_commit⟩) ≤ 1) :
    ((add_dependency g req).2 = 404 ↔
      (g.containsNode ⟨req.source_repo, req.source_commit⟩ = false ∨
       g.containsNode ⟨req.dependency_repo, req.dependency_commit⟩ = false)) ∧
    ((add_dependency g req).2 = 404 → (add_dependency g req).1 = g) ∧
    (g.containsNode ⟨req.source_repo, req.source_commit⟩ = true →
     g.containsNode ⟨req.dependency_repo, req.dependency_commit⟩ = true →
      (add_dependency g req).2 = 201 ∧
      (add_dependency g req).1.nodes = g.nodes ∧
      (∀ e, e ∈ (add_dependency g req).1.edges ↔
        e ∈ g.edges ∨ e = (⟨req.source_repo, req.source_commit⟩,
          ⟨req.dependency_repo, req.dependency_commit⟩)) ∧
      (add_dependency g req).1.edges.count
        (⟨req.source_repo, req.source_commit⟩,
         ⟨req.dependency_repo, req.dependency_commit⟩) = 1 ∧
      add_dependency (add_dependency g req).1 req = ((add_dependency g req).1, 201)) := by
  cases hs : g.containsNode ⟨req.source_repo, req.source_commit⟩ with
  | false =>
    refine ⟨by simp [add_dependency, hs], by simp [add_dependency, hs], ?_⟩
    intro habs
    simp at habs
  | true =>
    cases ht : g.containsNode ⟨req.dependency_repo, req.dependency_commit⟩ with
    | false =>
      refine ⟨by simp [add_dependency, hs, ht], by simp [add_dependency, hs, ht], ?_⟩
      intro _ habs
      simp at habs
    | true =>
      cases hmem : decide ((⟨req.source_repo, req.source_commit⟩,
          (⟨req.dependency_repo, req.dependency_commit⟩ : ProjectKey)) ∈ g.edges) with
      | true =>
        have hm : (⟨req.source_repo, req.source_commit⟩,
            (⟨req.dependency_repo, req.dependency_commit⟩ : ProjectKey)) ∈ g.edges :=
          of_decide_eq_true hmem
        have hcount : 0 < g.edges.count (⟨req.source_repo, req.source_commit⟩,
            (⟨req.dependency_repo, req.dependency_commit⟩ : ProjectKey)) :=
          List.count_pos_iff.mpr hm
        refine ⟨by simp [add_dependency, hs, ht, hm], by simp [add_dependency, hs, ht, hm], ?_⟩
        intro _ _
        refine ⟨by simp [add_dependency, hs, ht, hm], by simp [add_dependency, hs, ht, hm],
          ?_, ?_, by simp [add_dependency, hs, ht, hm]⟩
        · intro e
          simp only [add_dependency, hs, ht, hm, if_true, if_false]
          constructor
          · intro he
            exact Or.inl (by simpa [add_dependency, hs, ht, hm] using he)
          · rintro (he | rfl)
            · simpa [add_dependency, hs, ht, hm] using he
            · simpa [add_dependency, hs, ht, hm] using hm
        · have : (add_dependency g req).1 = g := by simp [add_dependency, hs, ht, hm]
          rw [this]
          omega
      | false =>
        have hm : (⟨req.source_repo, req.source_commit⟩,
            (⟨req.dependency_repo, req.dependency_commit⟩ : ProjectKey)) ∉ g.edges :=
          of_decide_eq_false hmem
        have hres : add_dependency g req = ({ g with edges := g.edges ++
            [(⟨req.source_repo, req.source_commit⟩,
              ⟨req.dependency_repo, req.dependency_commit⟩)] }, 201) := by
          simp [add_dependency, hs, ht, hm]
        have hcount0 : g.edges.count (⟨req.source_repo, req.source_commit⟩,
            (⟨req.dependency_repo, req.dependency_commit⟩ : ProjectKey)) = 0 :=
          List.count_eq_zero.mpr hm
        refine ⟨by simp [hres], by simp [hres], ?_⟩
        intro _ _
        refine ⟨by simp [hres], by simp [hres], ?_, ?_, ?_⟩
        · intro e
          rw [hres]
          simp only [List.mem_append, List.mem_singleton]
        · rw [hres]
          simp [List.count_append, hcount0]
        · rw [hres]
          exact add_dependency_exists_mem
            (by simpa [GraphDB.containsNode] using hs)
            (by simpa [GraphDB.containsNode] using ht)
            (by simp)

/-- C6 witness: asserting the already-present edge advanced→base on the
example graph (both nodes present, edge count one). -/
theorem add_dependency_spec_witness :
    ((add_dependency exampleGraph
        ⟨"advanced", "c1", "base", "c2"⟩).2 = 404 ↔
      (exampleGraph.containsNode ⟨"advanced", "c1"⟩ = false ∨
       exampleGraph.containsNode ⟨"base", "c2"⟩ = false)) ∧
    ((add_dependency exampleGraph ⟨"advanced", "c1", "base", "c2"⟩).2 = 404 →
      (add_dependency exampleGraph ⟨"advanced", "c1", "base", "c2"⟩).1 =
        exampleGraph) ∧
    (exampleGraph.containsNode ⟨"advanced", "c1"⟩ = true →
     exampleGraph.containsNode ⟨"base", "c2"⟩ = true →
      (add_dependency exampleGraph ⟨"advanced", "c1", "base", "c2"⟩).2 = 201 ∧
      (add_dependency exampleGraph ⟨"advanced", "c1", "base", "c2"⟩).1.nodes =
        exampleGraph.nodes ∧
      (∀ e, e ∈ (add_dependency exampleGraph
          ⟨"advanced", "c1", "base", "c2"⟩).1.edges ↔
        e ∈ exampleGraph.edges ∨ e = (⟨"advanced", "c1"⟩, ⟨"base", "c2"⟩)) ∧
      (add_dependency exampleGraph
          ⟨"advanced", "c1", "base", "c2"⟩).1.edges.count
        (⟨"advanced", "c1"⟩, ⟨"base", "c2"⟩) = 1 ∧
      add_dependency (add_dependency exampleGraph
          ⟨"advanced", "c1", "base", "c2"⟩).1
        ⟨"advanced", "c1", "base", "c2"⟩ =
        ((add_dependency exampleGraph ⟨"advanced", "c1", "base", "c2"⟩).1, 201)) :=
  add_dependency_spec exampleGraph ⟨"advanced", "c1", "base", "c2"⟩ (by decide)

/-!
Worker pool / ephemeral execution lifecycle: embedding of
`process_verification_task` in `verification-service/app/main_celery.py` and
`process_latex_task` in `latex-service/app/main_celery.py`.  The docker
backend is abstracted by an injected outcome; the try/except around
run/wait, and the finally block (terminal status write, best-effort
callback, then `if container: container.remove()`), are translated
explicitly. -/

/-- Job status values (`model.TaskStatus = queued | running | success |
fail`). -/
inductive TaskStatus where
  | queued
  | running
  | success
  | fail
deriving DecidableEq

/-- Outcome of the docker backend for one job: `client.containers.run` may
raise before the handle is bound (image/network error); otherwise
`container.wait()` either raises (connection loss or timeout) or returns a
result dict whose `StatusCode` entry may be absent. -/
inductive RunOutcome where
  | spawnError
  | waitError
  | waitResult (statusCode : Option Int)
deriving DecidableEq

/-- The try/except body: returns the container handle bound so far and the
exit code.  `exit_code` starts at `-1`; an exception anywhere in the body is
swallowed by `except Exception` leaving `-1`; a wait result is read with
`result.get("StatusCode", -1)`. -/
def workerTryBody (outcome : RunOutcome) : Option Unit × Int :=
  match outcome with
  | .spawnError => (none, -1)
  | .waitError => (some (), -1)
  | .waitResult sc => (some (), sc.getD (-1))

/-- Observable effects of one worker execution. -/
structure WorkerEffects where
  runningWritten : Bool
  containerSpawned : Bool
  containerRemoved : Bool
  exitCode : Int
  finalStatus : Option TaskStatus
  callbackValue : Option Bool
deriving DecidableEq

/-- The finally block: an inner try writes the terminal status
(`success` iff `exit_code == 0`) to Redis and then posts the status callback
with `has_valid_status = (exit_code == 0)`; a Redis failure skips the
callback and is swallowed; afterwards — unconditionally — the container is
removed when the handle is bound. -/
def workerFinally (redisFinalOk : Bool) (exitCode : Int)
    (container : Option Unit) : Option TaskStatus × Option Bool × Bool :=
  (if redisFinalOk then
      some (if exitCode = 0 then TaskStatus.success else TaskStatus.fail)
    else none,
   if redisFinalOk then some (exitCode = 0) else none,
   container.isSome)

/-- `process_verification_task`: write `running`, run the container under
try/except, then the finally block. -/
def process_verification_task (outcome : RunOutcome) (redisFinalOk : Bool) :
    WorkerEffects :=
  let body := workerTryBody outcome
  let fin := workerFinally redisFinalOk body.2 body.1
  { runningWritten := true
    containerSpawned := body.1.isSome
    containerRemoved := fin.2.2
    exitCode := body.2
    finalStatus := fin.1
    callbackValue := fin.2.1 }

/-- `process_latex_task`: identical orchestration shape (the callback posts
to the paper-status endpoint instead). -/
def process_latex_task (outcome : RunOutcome) (redisFinalOk : Bool) :
    WorkerEffects :=
  let body := workerTryBody outcome
  let fin := workerFinally redisFinalOk body.2 body.1
  { runningWritten := true
    containerSpawned := body.1.isSome
    containerRemoved := fin.2.2
    exitCode := body.2
    finalStatus := fin.1
    callbackValue := fin.2.1 }

/-- C7: the ephemeral container is torn down on every exit path — normal
completion, non-zero exit, missing status code, an exception during the wait
and an exception during spawn (where no container exists to remove) — in
both worker tasks, because removal sits in the finally block guarding the
handle; the three spec scenarios are listed explicitly. -/
theorem worker_teardown_every_path :
    ∀ (o : RunOutcome) (r : Bool),
      ((process_verification_task o r).containerRemoved =
        (process_verification_task o r).containerSpawned) ∧
      ((process_latex_task o r).containerRemoved =
        (process_latex_task o r).containerSpawned) ∧
      (process_verification_task (.waitResult (some 0)) r).containerRemoved = true ∧
      (process_verification_task (.waitResult (some 2)) r).containerRemoved = true ∧
      (process_verification_task .waitError r).containerRemoved = true := by
  intro o r
  cases o <;>
    simp [process_verification_task, process_latex_task, workerTryBody,
      workerFinally]

/-- C8: whenever a terminal status is written to the Status Store, it is
`success` exactly when the captured exit code is `0`; it is always one of
`success`/`fail`; and an exception raised during spawn or wait leaves the
synthetic exit code `-1`, hence `fail`. -/
theorem worker_terminal_status_spec (o : RunOutcome) (r : Bool)
    (s : TaskStatus)
    (hw : (process_verification_task o r).finalStatus = some s) :
    (s = TaskStatus.success ↔ (process_verification_task o r).exitCode = 0) ∧
    (s = TaskStatus.success ∨ s = TaskStatus.fail) ∧
    (o = RunOutcome.spawnError ∨ o = RunOutcome.waitError →
      (process_verification_task o r).exitCode = -1 ∧ s = TaskStatus.fail) := by
  cases r with
  | false => simp [process_verification_task, workerTryBody, workerFinally] at hw
  | true =>
    cases o with
    | spawnError =>
      simp [process_verification_task, workerTryBody, workerFinally] at hw ⊢
      simp [← hw]
    | waitError =>
      simp [process_verification_task, workerTryBody, workerFinally] at hw ⊢
      simp [← hw]
    | waitResult sc =>
      simp [process_verification_task, workerTryBody, workerFinally] at hw ⊢
      by_cases hc : sc.getD (-1) = 0
      · simp [hc] at hw ⊢
        simp [← hw, hc]
      · simp [hc] at hw ⊢
        simp [← hw]

/-- C8 witness: a container exiting with code 0 yields terminal status
`success`. -/
theorem worker_terminal_status_spec_witness :
    (TaskStatus.success = TaskStatus.success ↔
      (process_verification_task (.waitResult (some 0)) true).exitCode = 0) ∧
    (TaskStatus.success = TaskStatus.success ∨
      TaskStatus.success = TaskStatus.fail) ∧
    ((.waitResult (some 0) : RunOutcome) = RunOutcome.spawnError ∨
      (.waitResult (some 0) : RunOutcome) = RunOutcome.waitError →
      (process_verification_task (.waitResult (some 0)) true).exitCode = -1 ∧
      TaskStatus.success = TaskStatus.fail) :=
  worker_terminal_status_spec (.waitResult (some 0)) true TaskStatus.success rfl

/-!
Status Store (Redis polling facade): embedding of the Redis usage in
`verification-service/app/main_fastapi.py` (`verify`, `get_status`) and the
workers.  An entry is a raw value plus its expiry instant (`set` followed by
`expire(key, 86400)`); `get` returns the value only while unexpired. -/

/-- Raw content stored under a Redis key: either a well-formed encoding of
`model.RedisTaskData` (status + task id) or bytes rejected by
`RedisTaskData.model_validate_json`. -/
inductive RedisVal where
  | good (status : TaskStatus) (task_id : String)
  | malformed (raw : String)
deriving DecidableEq

/-- A stored entry with its absolute expiry instant. -/
structure RedisEntry where
  value : RedisVal
  expiresAt : Nat
deriving DecidableEq

/-- The transient key/value store. -/
abbrev RedisStore := List (String × RedisEntry)

/-- `redis_client.set(key, value)` then `expire(key, 86400)`: fully replaces
any prior entry under the key and resets its TTL. -/
def redisSetEx (st : RedisStore) (k : String) (v : RedisVal) (now : Nat) :
    RedisStore :=
  (k, ⟨v, now + 86400⟩) :: st.filter (fun p => p.1 ≠ k)

/-- `redis_client.get(key)`: the stored value while unexpired, else absent. -/
def redisGet (st : RedisStore) (k : String) (now : Nat) : Option RedisVal :=
  match st.lookup k with
  | some e => if now < e.expiresAt then some e.value else none
  | none => none

/-- Outcome of the `/status` endpoint as seen by a polling client. -/
inductive StatusResult where
  | not_found
  | status (s : TaskStatus) (task_id : String)
deriving DecidableEq

/-- Embedding of `get_status` in `verification-service/app/main_fastapi.py`:
read the subject key; a missing (or expired) value yields `not_found`; a
present but undecodable value is logged and also yields `not_found`; a
decodable value yields its status and task id.  The handler returns the
store it leaves behind, making mutation (or its absence) explicit. -/
def get_status (st : RedisStore) (k : String) (now : Nat) :
    RedisStore × StatusResult :=
  match redisGet st k now with
  | none => (st, .not_found)
  | some (.good s tid) => (st, .status s tid)
  | some (.malformed _) => (st, .not_found)

/-- A store holding undecodable content under a verification subject key. -/
def storeMal : RedisStore :=
  [("verification:u:c", ⟨.malformed "xyz", 100⟩)]

/-- C4 counterexample: the claim says a get on a key with malformed stored
content deletes the entry.  The handler only logs the decode failure: after
the get, the store is unchanged and the malformed entry is still present
(while the caller does receive `not_found`). -/
theorem get_status_keeps_malformed_entry :
    (get_status storeMal "verification:u:c" 0).1 = storeMal ∧
    (get_status storeMal "verification:u:c" 0).1.lookup "verification:u:c"
      ≠ none ∧
    (get_status storeMal "verification:u:c" 0).2 = StatusResult.not_found := by
  decide

/-- C4 (amended): when the Status Store holds malformed content for a
subject key, a get returns `not_found` to the caller and no decode error
propagates (the handler returns normally), but the stored entry is left in
place — the store does not self-heal by deletion. -/
theorem get_status_malformed_not_found (st : RedisStore) (k : String)
    (now : Nat) (raw : String) (e : RedisEntry)
    (hl : st.lookup k = some e) (hv : e.value = .malformed raw)
    (hexp : now < e.expiresAt) :
    get_status st k now = (st, StatusResult.not_found) := by
  unfold get_status redisGet
  rw [hl]
  simp [hexp, hv]

/-- C4 witness: the amended theorem on the concrete malformed store. -/
theorem get_status_malformed_not_found_witness :
    get_status storeMal "verification:u:c" 0 =
      (storeMal, StatusResult.not_found) :=
  get_status_malformed_not_found storeMal "verification:u:c" 0 "xyz"
    ⟨.malformed "xyz", 100⟩ (by decide) rfl (by decide)

/-!
Job status lifecycle (one verification job): the Status Store writes
performed by the submit endpoint and by the worker.  In `verify`
(`verification-service/app/main_fastapi.py`) the Celery task is enqueued by
`process_verification_task.delay(...)` BEFORE the `queued` entry is written
(the write needs the returned task id); the worker
(`main_celery.py`) writes `running` on dequeue and the terminal status in
its finally block.  Executions are all interleavings of the two threads
that respect each thread's program order and the causality that the worker
runs only after the enqueue. -/

/-- The atomic actions touching the Status Store for one job. -/
inductive JobAct where
  | enqueue
  | setQueued
  | setRunning
  | setFinal (ok : Bool)
deriving DecidableEq

/-- Program order of the submit endpoint: enqueue the task, then write
`queued`. -/
def apiProgram : List JobAct := [.enqueue, .setQueued]

/-- Program order of the worker: write `running`, then the terminal
status. -/
def workerProgram (ok : Bool) : List JobAct := [.setRunning, .setFinal ok]

/-- All order-preserving merges of two threads. -/
inductive Interleaving : List JobAct → List JobAct → List JobAct → Prop
  | nil : Interleaving [] [] []
  | left {x xs ys zs} :
      Interleaving xs ys zs → Interleaving (x :: xs) ys (x :: zs)
  | right {y xs ys zs} :
      Interleaving xs ys zs → Interleaving xs (y :: ys) (y :: zs)

/-- The first occurrence of `a` strictly precedes the first occurrence of
`b`. -/
def occursBefore : List JobAct → JobAct → JobAct → Bool
  | [], _, _ => false
  | x :: xs, a, b =>
    if x = a then xs.contains b
    else if x = b then false
    else occursBefore xs a b

/-- A schedule the code can execute: an interleaving of the two programs in
which the worker's first action follows the enqueue. -/
def ValidSchedule (ok : Bool) (sched : List JobAct) : Prop :=
  Interleaving apiProgram (workerProgram ok) sched ∧
  occursBefore sched .enqueue .setRunning = true

/-- Effect of one action on the stored status (each write fully replaces
the entry). -/
def applyAct (v : Option TaskStatus) : JobAct → Option TaskStatus
  | .enqueue => v
  | .setQueued => some .queued
  | .setRunning => some .running
  | .setFinal ok => some (if ok then .success else .fail)

/-- The stored status observed after each prefix of the schedule. -/
def statusTrace (sched : List JobAct) : List (Option TaskStatus) :=
  sched.scanl applyAct none

/-- Position of a stored status along the claimed forward order. -/
def statusRank : Option TaskStatus → Nat
  | none => 0
  | some .queued => 1
  | some .running => 2
  | some .success => 3
  | some .fail => 3

/-- The claim's observability property: between consecutive polls the status
never moves backward along queued → running → terminal, and once terminal it
stays at the same terminal value. -/
def forwardOnly (tr : List (Option TaskStatus)) : Bool :=
  (tr.zip tr.tail).all (fun p =>
    statusRank p.1 ≤ statusRank p.2 &&
    (!(statusRank p.1 = 3) || p.2 = p.1))

/-- The racy schedule the code permits: the worker dequeues and finishes
before the submit endpoint gets to write `queued`. -/
def racySchedule : List JobAct :=
  [.enqueue, .setRunning, .setFinal true, .setQueued]

/-- C3 counterexample: the claim says the observable status only ever moves
forward and, once terminal, stays terminal.  Because `verify` enqueues the
Celery task before writing `queued`, the schedule enqueue → running →
success → queued is a real execution; its observed trace moves backward
(success is overwritten by queued). -/
theorem job_status_goes_backward :
    ValidSchedule true racySchedule ∧
    forwardOnly (statusTrace racySchedule) = false := by
  refine ⟨⟨?_, by decide⟩, by decide⟩
  exact .left (.right (.right (.left .nil)))

/-- C3 (amended): in every execution in which the submit endpoint's `queued`
write lands before the worker's first write (the intended schedule; the code
does not enforce it), the only schedule is enqueue → queued → running →
terminal, the observed status moves only forward and ends at the terminal
value — and a terminal entry written at `tset` is returned unchanged by
every poll before `tset + 86400` (the 24h TTL), after which polls return
`not_found`. -/
theorem job_status_monotone (ok : Bool) (sched : List JobAct)
    (hv : ValidSchedule ok sched)
    (hq : occursBefore sched .setQueued .setRunning = true) :
    (sched = [.enqueue, .setQueued, .setRunning, .setFinal ok] ∧
     forwardOnly (statusTrace sched) = true ∧
     (statusTrace sched).getLast? =
       some (some (if ok then TaskStatus.success else TaskStatus.fail))) ∧
    ∀ (st : RedisStore) (k tid : String) (s : TaskStatus) (tset tpoll : Nat),
      (get_status (redisSetEx st k (.good s tid) tset) k tpoll).2 =
        (if tpoll < tset + 86400 then StatusResult.status s tid
         else StatusResult.not_found) := by
  constructor
  · obtain ⟨hi, hc⟩ := hv
    cases hi with
    | left h1 =>
      cases h1 with
      | left h2 =>
        cases h2 with
        | right h3 =>
          cases h3 with
          | right h4 =>
            cases h4
            cases ok <;> refine ⟨rfl, by decide, by decide⟩
      | right h2 =>
        cases h2 with
        | left h3 =>
          simp [occursBefore] at hq
        | right h3 =>
          simp [occursBefore] at hq
    | right h1 =>
      simp [occursBefore] at hc
  · intro st k tid s tset tpoll
    unfold get_status redisGet redisSetEx
    by_cases ht : tpoll < tset + 86400
    · simp [List.lookup, ht]
    · simp [List.lookup, ht]

/-- C3 witness: the amended theorem on the intended schedule with a
successful job. -/
theorem job_status_monotone_witness :
    (([JobAct.enqueue, .setQueued, .setRunning, .setFinal true] : List JobAct) =
       [.enqueue, .setQueued, .setRunning, .setFinal true] ∧
     forwardOnly (statusTrace
       [.enqueue, .setQueued, .setRunning, .setFinal true]) = true ∧
     (statusTrace
       [JobAct.enqueue, .setQueued, .setRunning, .setFinal true]).getLast? =
       some (some (if true then TaskStatus.success else TaskStatus.fail))) ∧
    ∀ (st : RedisStore) (k tid : String) (s : TaskStatus) (tset tpoll : Nat),
      (get_status (redisSetEx st k (.good s tid) tset) k tpoll).2 =
        (if tpoll < tset + 86400 then StatusResult.status s tid
         else StatusResult.not_found) :=
  job_status_monotone true
    [.enqueue, .setQueued, .setRunning, .setFinal true]
    ⟨.left (.left (.right (.right .nil))), by decide⟩ (by decide)
